import Mathlib

/-!
Verification of the spending-bot logic core (src/main.py).

The program is a Telegram expense-tracking bot.  Its logic core consists of
three parts, which we embed shallowly below:

* the parser `parse_expense` (main.py lines 57-64): a regular-expression
  match of the pattern anchored at the start of the stripped input, namely
  digits, an optional fractional part introduced by a dot or a comma,
  one-or-more whitespace, then a non-empty remainder matched by the
  dot-plus-dollar idiom (where the regex dot matches any character except
  the newline, and after stripping the dollar anchor is the end of the
  string);
* the ledger store: a JSON document mapping user keys to ordered record
  lists, mutated by `add_expense` (lines 39-54) and the clear command
  (lines 136-147) through a load / mutate-in-memory / save cycle.  We embed
  the in-memory dict as an insertion-ordered association list with Python
  dict semantics (update in place keeps position, a fresh key goes to the
  end, delete removes the key);
* the query views: last-ten-reversed history (lines 98-116) and
  sum-plus-count totals (lines 119-133).

Python floats are embedded as exact rationals (the numeric value of the
matched numeral); character classes are embedded at their ASCII meaning.
-/

namespace SpendingBot

/-- Whitespace as matched by the Python regex class backslash-s and by
`str.strip`, restricted to the ASCII range (space, tab, newline, carriage
return, vertical tab, form feed). -/
def isSpaceChar (c : Char) : Bool :=
  c = ' ' || c = '\t' || c = '\n' || c = '\x0d' || c = '\x0b' || c = '\x0c'

/-- Decimal digits as matched by the regex class backslash-d (ASCII 0-9). -/
def isDigitChar (c : Char) : Bool :=
  c.isDigit

/-- Remove trailing whitespace (the right half of Python `str.strip`). -/
def rstrip (s : List Char) : List Char :=
  (s.reverse.dropWhile isSpaceChar).reverse

/-- Python `str.strip()`: remove leading and trailing whitespace. -/
def pstrip (s : List Char) : List Char :=
  rstrip (s.dropWhile isSpaceChar)

/-- Numeric value of a digit string, most significant digit first. -/
def digitsToNat (ds : List Char) : Nat :=
  ds.foldl (fun a c => 10 * a + (c.toNat - '0'.toNat)) 0

/-- Numeric value of the numeral with integer digits `ip` and fractional
digits `fp` — what Python `float` returns on the matched group after the
comma is replaced by a dot, embedded as an exact rational. -/
def numVal (ip fp : List Char) : ℚ :=
  (digitsToNat ip : ℚ) + (digitsToNat fp : ℚ) / 10 ^ fp.length

/-- The regex match of `parse_expense` (main.py lines 57-64) applied to the
already-stripped text: the anchored pattern digits, optional dot-or-comma
plus digits, whitespace-plus, remainder.  The regex is deterministic here:
each greedy sub-match is forced, so the match succeeds exactly when, after
the maximal digit run (non-empty), the optional fractional part, and a
non-empty maximal whitespace run, the remainder is non-empty and contains
no newline (the regex dot does not match a newline, and the dollar anchor
on the stripped string is the end of the input).  On success the amount is
the value of the numeral and the description is the stripped remainder
(group 2 is stripped again at main.py line 62). -/
def parseStripped (t : List Char) : Option (ℚ × List Char) :=
  let ip := t.takeWhile isDigitChar
  let r1 := t.dropWhile isDigitChar
  if ip = [] then none else
  let fr : List Char × List Char :=
    match r1 with
    | [] => ([], r1)
    | c :: r =>
      if c = '.' || c = ',' then
        let fd := r.takeWhile isDigitChar
        if fd = [] then ([], r1) else (fd, r.dropWhile isDigitChar)
      else ([], r1)
  let r2 := fr.2
  let ws := r2.takeWhile isSpaceChar
  let r3 := r2.dropWhile isSpaceChar
  if ws = [] then none
  else if r3 = [] then none
  else if r3.any (· = '\n') then none
  else some (numVal ip fr.1, pstrip r3)

/-- The whole parser: strip, then match (main.py line 59 applies the regex
to `text.strip()`). -/
def parse_expense (s : List Char) : Option (ℚ × List Char) :=
  parseStripped (pstrip s)

/-- One stored expense: main.py lines 46-50 build the dict with keys
amount, description, date.  The timestamp is opaque to every claim, so we
embed it as a natural number. -/
structure ExpenseRecord where
  amount : ℚ
  description : List Char
  date : Nat
deriving DecidableEq, Repr

/-- User keys are strings (`str(chat.id)` in main.py). -/
abbrev UserKey := List Char

/-- The persisted spending document: an insertion-ordered Python dict from
user key to record list, embedded as an association list. -/
abbrev Ledger := List (UserKey × List ExpenseRecord)

/-- Python `key in data`. -/
def dictMem (d : Ledger) (k : UserKey) : Bool :=
  match d with
  | [] => false
  | (k', _) :: r => if k' = k then true else dictMem r k

/-- Python `data[key]` as an option (first entry with the key). -/
def dictGet (d : Ledger) (k : UserKey) : Option (List ExpenseRecord) :=
  match d with
  | [] => none
  | (k', v) :: r => if k' = k then some v else dictGet r k

/-- Python `data[key] = v`: replace in place if the key is present,
otherwise append the new key at the end (dict insertion order). -/
def dictSet (d : Ledger) (k : UserKey) (v : List ExpenseRecord) : Ledger :=
  match d with
  | [] => [(k, v)]
  | (k', v') :: r => if k' = k then (k, v) :: r else (k', v') :: dictSet r k v

/-- Python `del data[key]` (total: absent keys are left alone; the code
only calls it under a membership guard). -/
def dictDel (d : Ledger) (k : UserKey) : Ledger :=
  match d with
  | [] => []
  | (k', v') :: r => if k' = k then dictDel r k else (k', v') :: dictDel r k

/-- The spec's `readAll`: the user's stored sequence, empty for an unknown
key (main.py guards reads with `user_id not in data`). -/
def readAll (d : Ledger) (k : UserKey) : List ExpenseRecord :=
  (dictGet d k).getD []

/-- Embedding of `add_expense` (main.py lines 39-54): create the key with
an empty list when absent, build the record, append it to the user's list,
and return the created record together with the saved ledger. -/
def add_expense (d : Ledger) (u : UserKey) (amount : ℚ) (description : List Char)
    (now : Nat) : ExpenseRecord × Ledger :=
  let d1 := if dictMem d u then d else dictSet d u []
  let e : ExpenseRecord := ⟨amount, description, now⟩
  (e, dictSet d1 u (readAll d1 u ++ [e]))

/-- Embedding of the mutation in `clear_command` (main.py lines 143-145):
delete the user's key when present, otherwise change nothing. -/
def clear_user (d : Ledger) (u : UserKey) : Ledger :=
  if dictMem d u then dictDel d u else d

/-- The spec's `recent` view, from `history_command` (main.py line 109 and
112): the Python slice last-n elements, presented reversed.  The code
fixes n = 10. -/
def recent (d : Ledger) (u : UserKey) (n : Nat) : List ExpenseRecord :=
  let l := readAll d u
  (l.drop (l.length - n)).reverse

/-- The spec's `totals` view, from `total_command` (main.py lines 130-131):
the sum of the user's amounts and the number of records. -/
def totals (d : Ledger) (u : UserKey) : ℚ × Nat :=
  (((readAll d u).map ExpenseRecord.amount).sum, (readAll d u).length)

/-- The two replies `handle_message` can produce for a text message:
the saved-confirmation or the did-not-understand help text. -/
inductive Reply where
  | saved (amount : ℚ) (description : List Char)
  | notUnderstood
deriving DecidableEq, Repr

/-- Embedding of `handle_message` (main.py lines 150-175): parse the text;
on success add the expense and confirm, otherwise leave the ledger alone
and reply that the input was not understood. -/
def handle_message (d : Ledger) (u : UserKey) (text : List Char) (now : Nat) :
    Ledger × Reply :=
  match parse_expense text with
  | some (a, desc) => ((add_expense d u a desc now).2, Reply.saved a desc)
  | none => (d, Reply.notUnderstood)

/-- Ledger states reachable from the empty store by expense messages the
parser accepted and by clear commands. -/
inductive Reach : Ledger → Prop where
  | empty : Reach []
  | add (d : Ledger) (u : UserKey) (text : List Char) (a : ℚ) (desc : List Char)
      (now : Nat) : Reach d → parse_expense text = some (a, desc) →
      Reach (add_expense d u a desc now).2
  | clear (d : Ledger) (u : UserKey) : Reach d → Reach (clear_user d u)

/-- Text of an optional fractional part: nothing, or a separator character
followed by the fractional digits. -/
def fracStr (fo : Option (Char × List Char)) : List Char :=
  match fo with
  | none => []
  | some (c, fp) => c :: fp

/-- Digits of an optional fractional part. -/
def fracDigits (fo : Option (Char × List Char)) : List Char :=
  match fo with
  | none => []
  | some (_, fp) => fp

/-- Fold a list of amounts into a ledger by repeated `add_expense`, all with
description e and timestamp 0 (a test harness for the scenario claims). -/
def addAll (d : Ledger) (u : UserKey) (l : List ℚ) : Ledger :=
  l.foldl (fun d' a => (add_expense d' u a ['e'] 0).2) d

/-- Fifteen amounts, for the fifteen-append history scenario. -/
def demoAmounts : List ℚ :=
  [1, 2, 3, 4, 5, 6, 7, 8, 9, 10, 11, 12, 13, 14, 15]

/-! ### Helper lemmas about takeWhile, dropWhile and stripping -/

theorem takeWhile_append_of_all {p : Char → Bool} {xs ys : List Char}
    (h : ∀ c ∈ xs, p c = true) :
    (xs ++ ys).takeWhile p = xs ++ ys.takeWhile p := by
  induction xs with
  | nil => simp
  | cons x xs ih =>
    have hx : p x = true := h x (by simp)
    simp only [List.cons_append, List.takeWhile_cons_of_pos hx]
    rw [ih fun c hc => h c (by simp [hc])]

theorem dropWhile_append_of_all {p : Char → Bool} {xs ys : List Char}
    (h : ∀ c ∈ xs, p c = true) :
    (xs ++ ys).dropWhile p = ys.dropWhile p := by
  induction xs with
  | nil => simp
  | cons x xs ih =>
    have hx : p x = true := h x (by simp)
    simp only [List.cons_append, List.dropWhile_cons_of_pos hx]
    exact ih fun c hc => h c (by simp [hc])

theorem dropWhile_append_of_ne_nil {p : Char → Bool} {xs : List Char} (ys : List Char)
    (h : xs.dropWhile p ≠ []) :
    (xs ++ ys).dropWhile p = xs.dropWhile p ++ ys := by
  rw [List.dropWhile_append]
  simp only [List.isEmpty_iff]
  rw [if_neg h]

theorem head_dropWhile_false {p : Char → Bool} {l : List Char} {x : Char} {xs : List Char}
    (h : l.dropWhile p = x :: xs) : p x = false := by
  induction l with
  | nil => simp at h
  | cons a l ih =>
    by_cases ha : p a = true
    · rw [List.dropWhile_cons_of_pos ha] at h
      exact ih h
    · rw [List.dropWhile_cons_of_neg ha] at h
      cases h
      simpa using ha

theorem dropWhile_dropWhile {p : Char → Bool} (l : List Char) :
    (l.dropWhile p).dropWhile p = l.dropWhile p := by
  rcases h : l.dropWhile p with _ | ⟨x, xs⟩
  · rfl
  · exact List.dropWhile_cons_of_neg (by simp [head_dropWhile_false h])

theorem rstrip_eq_nil_iff {l : List Char} :
    rstrip l = [] ↔ ∀ c ∈ l, isSpaceChar c = true := by
  unfold rstrip
  rw [List.reverse_eq_nil_iff, List.dropWhile_eq_nil_iff]
  constructor
  · intro h c hc
    exact h c (List.mem_reverse.2 hc)
  · intro h c hc
    exact h c (List.mem_reverse.1 hc)

theorem rstrip_append {A B : List Char} (h : rstrip B ≠ []) :
    rstrip (A ++ B) = A ++ rstrip B := by
  unfold rstrip at *
  rw [List.reverse_append]
  rw [dropWhile_append_of_ne_nil]
  · rw [List.reverse_append, List.reverse_reverse]
  · intro hnil
    exact h (by rw [hnil]; rfl)

theorem rstrip_cons {x : Char} {l : List Char} (h : rstrip l ≠ []) :
    rstrip (x :: l) = x :: rstrip l := by
  have := rstrip_append (A := [x]) (B := l) h
  simpa using this

theorem rstrip_ne_nil_of_head_false {x : Char} {xs : List Char}
    (h : isSpaceChar x = false) : rstrip (x :: xs) ≠ [] := by
  intro hnil
  rw [rstrip_eq_nil_iff] at hnil
  have := hnil x (by simp)
  rw [h] at this
  exact Bool.false_ne_true this

theorem rstrip_head_cons {x : Char} {xs : List Char} (hx : isSpaceChar x = false) :
    ∃ ys, rstrip (x :: xs) = x :: ys := by
  rcases hr : rstrip xs with _ | ⟨y, ys⟩
  · refine ⟨[], ?_⟩
    have hall : ∀ c ∈ xs.reverse, isSpaceChar c = true := by
      intro c hc
      have hxs : ∀ c ∈ xs, isSpaceChar c = true := rstrip_eq_nil_iff.1 hr
      exact hxs c (List.mem_reverse.1 hc)
    unfold rstrip
    simp only [List.reverse_cons]
    rw [dropWhile_append_of_all hall]
    rw [List.dropWhile_cons_of_neg (by simp [hx])]
    rfl
  · refine ⟨y :: ys, ?_⟩
    rw [rstrip_cons (by simp [hr]), hr]

theorem dropWhile_rstrip {l : List Char} :
    (rstrip l).dropWhile isSpaceChar = pstrip l := by
  unfold pstrip
  rcases h : l.dropWhile isSpaceChar with _ | ⟨x, xs⟩
  · have hall : ∀ c ∈ l, isSpaceChar c = true := List.dropWhile_eq_nil_iff.1 h
    have hr : rstrip l = [] := rstrip_eq_nil_iff.2 hall
    rw [hr]
    rfl
  · have hx : isSpaceChar x = false := head_dropWhile_false h
    have hrne : rstrip (x :: xs) ≠ [] := rstrip_ne_nil_of_head_false hx
    have h1 : rstrip l = l.takeWhile isSpaceChar ++ rstrip (x :: xs) := by
      conv_lhs => rw [← List.takeWhile_append_dropWhile (p := isSpaceChar) (l := l), h]
      exact rstrip_append hrne
    have htw : ∀ c ∈ l.takeWhile isSpaceChar, isSpaceChar c = true :=
      fun c hc => List.mem_takeWhile_imp hc
    rw [h1, dropWhile_append_of_all htw]
    rcases @rstrip_head_cons x xs hx with ⟨ys, hys⟩
    rw [hys]
    rw [List.dropWhile_cons_of_neg (by simp [hx])]

theorem rstrip_rstrip {l : List Char} : rstrip (rstrip l) = rstrip l := by
  unfold rstrip
  rw [List.reverse_reverse, dropWhile_dropWhile]

theorem dropWhile_pstrip {l : List Char} :
    (pstrip l).dropWhile isSpaceChar = pstrip l := by
  rw [← dropWhile_rstrip, dropWhile_dropWhile, dropWhile_rstrip]

theorem pstrip_idem {l : List Char} : pstrip (pstrip l) = pstrip l := by
  have h1 : pstrip (pstrip l) = rstrip ((pstrip l).dropWhile isSpaceChar) := rfl
  rw [h1, dropWhile_pstrip]
  have h2 : rstrip (pstrip l) = rstrip (rstrip (l.dropWhile isSpaceChar)) := rfl
  rw [h2, rstrip_rstrip]
  rfl

theorem mem_rstrip {c : Char} {l : List Char} (h : c ∈ rstrip l) : c ∈ l := by
  unfold rstrip at h
  have := (List.dropWhile_sublist (l := l.reverse) isSpaceChar).mem
    (List.mem_reverse.1 h)
  exact List.mem_reverse.1 this

theorem mem_pstrip {c : Char} {l : List Char} (h : c ∈ pstrip l) : c ∈ l := by
  unfold pstrip at h
  exact (List.dropWhile_sublist isSpaceChar).mem (mem_rstrip h)

theorem pstrip_ne_nil_of_rstrip {l : List Char} (h : rstrip l ≠ []) :
    pstrip l ≠ [] := by
  have hex : ¬ ∀ c ∈ l, isSpaceChar c = true :=
    fun hall => h (rstrip_eq_nil_iff.2 hall)
  have hdw : l.dropWhile isSpaceChar ≠ [] :=
    fun hnil => hex (List.dropWhile_eq_nil_iff.1 hnil)
  rcases hd : l.dropWhile isSpaceChar with _ | ⟨x, xs⟩
  · exact absurd hd hdw
  · unfold pstrip
    rw [hd]
    exact rstrip_ne_nil_of_head_false (head_dropWhile_false hd)

theorem rstrip_append_spaces {A w2 : List Char}
    (h2 : ∀ c ∈ w2, isSpaceChar c = true) :
    rstrip (A ++ w2) = rstrip A := by
  have hrev : ∀ c ∈ w2.reverse, isSpaceChar c = true :=
    fun c hc => h2 c (List.mem_reverse.1 hc)
  unfold rstrip
  rw [List.reverse_append, dropWhile_append_of_all hrev]

theorem pstrip_sandwich {w1 w2 s : List Char}
    (h1 : ∀ c ∈ w1, isSpaceChar c = true) (h2 : ∀ c ∈ w2, isSpaceChar c = true) :
    pstrip (w1 ++ s ++ w2) = pstrip s := by
  unfold pstrip
  rw [List.append_assoc, dropWhile_append_of_all h1]
  rcases hd : s.dropWhile isSpaceChar with _ | ⟨x, xs⟩
  · have hall : ∀ c ∈ s, isSpaceChar c = true := List.dropWhile_eq_nil_iff.1 hd
    rw [dropWhile_append_of_all hall, List.dropWhile_eq_nil_iff.2 h2]
  · have hx : isSpaceChar x = false := head_dropWhile_false hd
    have htw : ∀ c ∈ s.takeWhile isSpaceChar, isSpaceChar c = true :=
      fun c hc => List.mem_takeWhile_imp hc
    have hsd : (s ++ w2).dropWhile isSpaceChar = (x :: xs) ++ w2 := by
      conv_lhs => rw [← List.takeWhile_append_dropWhile (p := isSpaceChar) (l := s), hd,
        List.append_assoc]
      rw [dropWhile_append_of_all htw]
      exact List.dropWhile_cons_of_neg (p := isSpaceChar) (by simp [hx])
    rw [hsd]
    exact rstrip_append_spaces h2

/-! ### Helper lemmas about the dict embedding -/

theorem dictGet_set_self (d : Ledger) (k : UserKey) (v : List ExpenseRecord) :
    dictGet (dictSet d k v) k = some v := by
  induction d with
  | nil => simp [dictSet, dictGet]
  | cons p r ih =>
    rcases p with ⟨k', v'⟩
    by_cases hk : k' = k
    · simp [dictSet, dictGet, hk]
    · simp [dictSet, dictGet, hk, ih]

theorem dictGet_set_other {d : Ledger} {k k' : UserKey} (v : List ExpenseRecord)
    (h : k' ≠ k) : dictGet (dictSet d k v) k' = dictGet d k' := by
  have hne : ¬ k = k' := fun he => h he.symm
  induction d with
  | nil =>
    simp only [dictSet, dictGet]
    rw [if_neg hne]
  | cons p r ih =>
    rcases p with ⟨k'', v''⟩
    by_cases hk : k'' = k
    · subst hk
      simp only [dictSet, if_pos rfl, dictGet]
      rw [if_neg hne, if_neg hne]
    · simp only [dictSet, if_neg hk, dictGet]
      by_cases hk' : k'' = k'
      · simp [hk']
      · simp [hk', ih]

theorem dictGet_of_not_mem {d : Ledger} {k : UserKey} (h : dictMem d k = false) :
    dictGet d k = none := by
  induction d with
  | nil => rfl
  | cons p r ih =>
    rcases p with ⟨k', v'⟩
    by_cases hk : k' = k
    · simp [dictMem, hk] at h
    · simp only [dictMem, if_neg hk] at h
      simp [dictGet, hk, ih h]

theorem dictSet_set_self (d : Ledger) (k : UserKey) (v w : List ExpenseRecord) :
    dictSet (dictSet d k v) k w = dictSet d k w := by
  induction d with
  | nil => simp [dictSet]
  | cons p r ih =>
    rcases p with ⟨k', v'⟩
    by_cases hk : k' = k
    · simp [dictSet, hk]
    · simp [dictSet, hk, ih]

theorem mem_dictSet {q : UserKey × List ExpenseRecord} {d : Ledger} {k : UserKey}
    {v : List ExpenseRecord} (h : q ∈ dictSet d k v) : q = (k, v) ∨ q ∈ d := by
  induction d with
  | nil => simpa [dictSet] using h
  | cons p r ih =>
    rcases p with ⟨k', v'⟩
    by_cases hk : k' = k
    · simp only [dictSet, if_pos hk, List.mem_cons] at h
      rcases h with h | h
      · exact Or.inl h
      · exact Or.inr (List.mem_cons_of_mem _ h)
    · simp only [dictSet, if_neg hk, List.mem_cons] at h
      rcases h with h | h
      · exact Or.inr (List.mem_cons.2 (Or.inl h))
      · rcases ih h with h' | h'
        · exact Or.inl h'
        · exact Or.inr (List.mem_cons_of_mem _ h')

theorem mem_dictDel {q : UserKey × List ExpenseRecord} {d : Ledger} {k : UserKey}
    (h : q ∈ dictDel d k) : q ∈ d := by
  induction d with
  | nil => simp [dictDel] at h
  | cons p r ih =>
    rcases p with ⟨k', v'⟩
    by_cases hk : k' = k
    · simp only [dictDel, if_pos hk] at h
      exact List.mem_cons_of_mem _ (ih h)
    · simp only [dictDel, if_neg hk, List.mem_cons] at h
      rcases h with h | h
      · exact List.mem_cons.2 (Or.inl h)
      · exact List.mem_cons_of_mem _ (ih h)

theorem dictGet_del_self (d : Ledger) (k : UserKey) :
    dictGet (dictDel d k) k = none := by
  induction d with
  | nil => rfl
  | cons p r ih =>
    rcases p with ⟨k', v'⟩
    by_cases hk : k' = k
    · simp [dictDel, hk, ih]
    · simp [dictDel, dictGet, hk, ih]

theorem dictGet_del_other {d : Ledger} {k k' : UserKey} (h : k' ≠ k) :
    dictGet (dictDel d k) k' = dictGet d k' := by
  have hne : ¬ k = k' := fun he => h he.symm
  induction d with
  | nil => rfl
  | cons p r ih =>
    rcases p with ⟨k'', v''⟩
    by_cases hk : k'' = k
    · subst hk
      simp only [dictDel, if_pos rfl, dictGet]
      rw [if_neg hne]
      exact ih
    · simp only [dictDel, if_neg hk, dictGet]
      by_cases hk' : k'' = k'
      · simp [hk']
      · simp [hk', ih]

theorem dictMem_del_self (d : Ledger) (k : UserKey) :
    dictMem (dictDel d k) k = false := by
  induction d with
  | nil => rfl
  | cons p r ih =>
    rcases p with ⟨k', v'⟩
    by_cases hk : k' = k
    · simp [dictDel, hk, ih]
    · simp [dictDel, dictMem, hk, ih]

/-! ### Helper lemmas about the store operations -/

theorem add_expense_fst (d : Ledger) (u : UserKey) (a : ℚ) (ds : List Char) (n : Nat) :
    (add_expense d u a ds n).1 = ⟨a, ds, n⟩ := rfl

theorem add_expense_snd (d : Ledger) (u : UserKey) (a : ℚ) (ds : List Char) (n : Nat) :
    (add_expense d u a ds n).2 = dictSet d u (readAll d u ++ [⟨a, ds, n⟩]) := by
  unfold add_expense
  by_cases hm : dictMem d u
  · simp [hm]
  · simp only [hm, if_false, Bool.false_eq_true]
    rw [dictSet_set_self]
    have h1 : readAll (dictSet d u []) u = [] := by
      unfold readAll
      rw [dictGet_set_self]
      rfl
    have h2 : readAll d u = [] := by
      unfold readAll
      rw [dictGet_of_not_mem (by simpa using hm)]
      rfl
    rw [h1, h2]

theorem readAll_add_self (d : Ledger) (u : UserKey) (a : ℚ) (ds : List Char) (n : Nat) :
    readAll (add_expense d u a ds n).2 u = readAll d u ++ [⟨a, ds, n⟩] := by
  rw [add_expense_snd]
  unfold readAll
  rw [dictGet_set_self]
  rfl

theorem readAll_add_other {d : Ledger} {u v : UserKey} (a : ℚ) (ds : List Char)
    (n : Nat) (h : v ≠ u) :
    readAll (add_expense d u a ds n).2 v = readAll d v := by
  rw [add_expense_snd]
  unfold readAll
  rw [dictGet_set_other _ h]

theorem readAll_clear_self (d : Ledger) (u : UserKey) :
    readAll (clear_user d u) u = [] := by
  unfold clear_user readAll
  by_cases hm : dictMem d u
  · rw [if_pos hm, dictGet_del_self]
    rfl
  · rw [if_neg hm, dictGet_of_not_mem (by simpa using hm)]
    rfl

theorem readAll_clear_other {d : Ledger} {u v : UserKey} (h : v ≠ u) :
    readAll (clear_user d u) v = readAll d v := by
  unfold clear_user readAll
  by_cases hm : dictMem d u
  · rw [if_pos hm, dictGet_del_other h]
  · rw [if_neg hm]

theorem clear_user_not_mem {d : Ledger} {u : UserKey} (h : dictMem d u = false) :
    clear_user d u = d := by
  unfold clear_user
  rw [h]
  rfl

theorem clear_user_idem (d : Ledger) (u : UserKey) :
    clear_user (clear_user d u) u = clear_user d u := by
  by_cases hm : dictMem d u
  · have h1 : clear_user d u = dictDel d u := by
      unfold clear_user
      rw [if_pos hm]
    rw [h1]
    exact clear_user_not_mem (dictMem_del_self d u)
  · have h1 : clear_user d u = d := clear_user_not_mem (by simpa using hm)
    rw [h1, h1]

/-! ### Parse evaluation lemmas -/

theorem digit_not_space {c : Char} (h : isDigitChar c = true) :
    isSpaceChar c = false := by
  have key : ∀ d : Char, c = d → isDigitChar d = true := fun d hd => hd ▸ h
  unfold isSpaceChar
  simp only [Bool.or_eq_false_iff, decide_eq_false_iff_not]
  refine ⟨⟨⟨⟨⟨?_, ?_⟩, ?_⟩, ?_⟩, ?_⟩, ?_⟩ <;> intro hc <;>
    exact absurd (key _ hc) (by decide)

theorem numVal_nonneg (ip fp : List Char) : 0 ≤ numVal ip fp := by
  unfold numVal
  have h1 : (0:ℚ) ≤ (digitsToNat ip : ℚ) := Nat.cast_nonneg _
  have h2 : (0:ℚ) ≤ (digitsToNat fp : ℚ) / 10 ^ fp.length :=
    div_nonneg (Nat.cast_nonneg _) (by positivity)
  linarith

theorem rstrip_ne_nil_of_pstrip {ds : List Char} (h : pstrip ds ≠ []) :
    rstrip ds ≠ [] := by
  intro hr
  apply h
  have hall : ∀ c ∈ ds, isSpaceChar c = true := rstrip_eq_nil_iff.1 hr
  unfold pstrip
  rw [List.dropWhile_eq_nil_iff.2 hall]
  rfl

theorem pstrip_dropWhile_ne_nil {X : List Char} (h : X.dropWhile isSpaceChar ≠ []) :
    pstrip (X.dropWhile isSpaceChar) ≠ [] := by
  rcases hd : X.dropWhile isSpaceChar with _ | ⟨x, xs⟩
  · exact absurd hd h
  · unfold pstrip
    rw [← hd, dropWhile_dropWhile, hd]
    exact rstrip_ne_nil_of_head_false (head_dropWhile_false hd)

theorem parseStripped_nofrac {ip R : List Char} (hip : ip ≠ [])
    (hipd : ∀ c ∈ ip, isDigitChar c = true) :
    parseStripped (ip ++ ' ' :: R) =
      if R.dropWhile isSpaceChar = [] then none
      else if (R.dropWhile isSpaceChar).any (· = '\n') then none
      else some (numVal ip [], pstrip (R.dropWhile isSpaceChar)) := by
  have h1 : (ip ++ ' ' :: R).takeWhile isDigitChar = ip := by
    rw [takeWhile_append_of_all hipd,
      List.takeWhile_cons_of_neg (p := isDigitChar) (by decide), List.append_nil]
  have h2 : (ip ++ ' ' :: R).dropWhile isDigitChar = ' ' :: R := by
    rw [dropWhile_append_of_all hipd]
    exact List.dropWhile_cons_of_neg (p := isDigitChar) (by decide)
  have h3 : (' ' :: R).takeWhile isSpaceChar = ' ' :: R.takeWhile isSpaceChar :=
    List.takeWhile_cons_of_pos (by decide)
  have h4 : (' ' :: R).dropWhile isSpaceChar = R.dropWhile isSpaceChar :=
    List.dropWhile_cons_of_pos (by decide)
  simp only [parseStripped, h1, h2, if_neg hip, h3, h4]
  simp only [show ((' ' = '.' : Bool) || (' ' = ',' : Bool)) = false by decide,
    Bool.false_eq_true, if_false, reduceCtorEq]
  rfl

theorem parseStripped_frac {ip fp R : List Char} {sep : Char} (hip : ip ≠ [])
    (hipd : ∀ c ∈ ip, isDigitChar c = true) (hsep : sep = '.' ∨ sep = ',')
    (hfp : fp ≠ []) (hfpd : ∀ c ∈ fp, isDigitChar c = true) :
    parseStripped (ip ++ sep :: (fp ++ ' ' :: R)) =
      if R.dropWhile isSpaceChar = [] then none
      else if (R.dropWhile isSpaceChar).any (· = '\n') then none
      else some (numVal ip fp, pstrip (R.dropWhile isSpaceChar)) := by
  have hsepd : isDigitChar sep = false := by
    rcases hsep with h | h <;> rw [h] <;> decide
  have hsepb : ((sep = '.' : Bool) || (sep = ',' : Bool)) = true := by
    rcases hsep with h | h <;> rw [h] <;> decide
  have h1 : (ip ++ sep :: (fp ++ ' ' :: R)).takeWhile isDigitChar = ip := by
    rw [takeWhile_append_of_all hipd,
      List.takeWhile_cons_of_neg (p := isDigitChar) (by simp [hsepd]), List.append_nil]
  have h2 : (ip ++ sep :: (fp ++ ' ' :: R)).dropWhile isDigitChar =
      sep :: (fp ++ ' ' :: R) := by
    rw [dropWhile_append_of_all hipd]
    exact List.dropWhile_cons_of_neg (p := isDigitChar) (by simp [hsepd])
  have h5 : (fp ++ ' ' :: R).takeWhile isDigitChar = fp := by
    rw [takeWhile_append_of_all hfpd,
      List.takeWhile_cons_of_neg (p := isDigitChar) (by decide), List.append_nil]
  have h6 : (fp ++ ' ' :: R).dropWhile isDigitChar = ' ' :: R := by
    rw [dropWhile_append_of_all hfpd]
    exact List.dropWhile_cons_of_neg (p := isDigitChar) (by decide)
  have h3 : (' ' :: R).takeWhile isSpaceChar = ' ' :: R.takeWhile isSpaceChar :=
    List.takeWhile_cons_of_pos (by decide)
  have h4 : (' ' :: R).dropWhile isSpaceChar = R.dropWhile isSpaceChar :=
    List.dropWhile_cons_of_pos (by decide)
  simp only [parseStripped, h1, h2, if_neg hip, hsepb, if_true, h5, h6, if_neg hfp,
    h3, h4, reduceCtorEq, Bool.false_eq_true, if_false]

theorem parseStripped_no_digit {t : List Char}
    (h : t.takeWhile isDigitChar = []) : parseStripped t = none := by
  simp [parseStripped, h]

theorem parseStripped_numeral_only (ip : List Char) (fo : Option (Char × List Char))
    (hipd : ∀ c ∈ ip, isDigitChar c = true)
    (hfo : ∀ p, fo = some p → (p.1 = '.' ∨ p.1 = ',') ∧ p.2 ≠ [] ∧
      ∀ c ∈ p.2, isDigitChar c = true) :
    parseStripped (ip ++ fracStr fo) = none := by
  rcases hip : ip with _ | ⟨c0, ip0⟩
  · rcases fo with _ | ⟨sep, fp⟩
    · rfl
    · rcases hfo (sep, fp) rfl with ⟨hsep, hfp, hfpd⟩
      dsimp only at hsep hfp hfpd
      have hsepd : isDigitChar sep = false := by
        rcases hsep with h | h <;> rw [h] <;> decide
      apply parseStripped_no_digit
      simp only [fracStr, List.nil_append]
      exact List.takeWhile_cons_of_neg (by simp [hsepd])
  · rw [← hip]
    have hipne : ip ≠ [] := by rw [hip]; exact List.cons_ne_nil _ _
    rcases fo with _ | ⟨sep, fp⟩
    · have h1 : (ip ++ fracStr none).takeWhile isDigitChar = ip := by
        simp only [fracStr, List.append_nil]
        rw [← List.append_nil ip]
        rw [takeWhile_append_of_all (by simpa using hipd)]
        simp
      have h2 : (ip ++ fracStr none).dropWhile isDigitChar = [] := by
        simp only [fracStr, List.append_nil]
        rw [← List.append_nil ip]
        rw [dropWhile_append_of_all (by simpa using hipd)]
        rfl
      simp [parseStripped, h1, h2, hipne]
    · rcases hfo (sep, fp) rfl with ⟨hsep, hfp, hfpd⟩
      dsimp only at hsep hfp hfpd
      have hsepd : isDigitChar sep = false := by
        rcases hsep with h | h <;> rw [h] <;> decide
      have hsepb : ((sep = '.' : Bool) || (sep = ',' : Bool)) = true := by
        rcases hsep with h | h <;> rw [h] <;> decide
      have h1 : (ip ++ fracStr (some (sep, fp))).takeWhile isDigitChar = ip := by
        simp only [fracStr]
        rw [takeWhile_append_of_all hipd,
          List.takeWhile_cons_of_neg (p := isDigitChar) (by simp [hsepd]), List.append_nil]
      have h2 : (ip ++ fracStr (some (sep, fp))).dropWhile isDigitChar = sep :: fp := by
        simp only [fracStr]
        rw [dropWhile_append_of_all hipd]
        exact List.dropWhile_cons_of_neg (p := isDigitChar) (by simp [hsepd])
      have h5 : fp.takeWhile isDigitChar = fp := by
        rw [← List.append_nil fp, takeWhile_append_of_all (by simpa using hfpd)]
        simp
      have h6 : fp.dropWhile isDigitChar = [] := by
        rw [← List.append_nil fp, dropWhile_append_of_all (by simpa using hfpd)]
        rfl
      simp [parseStripped, h1, h2, hipne, hsepb, h5, h6, hfp]

theorem parseStripped_some {t : List Char} {a : ℚ} {ds : List Char}
    (h : parseStripped t = some (a, ds)) :
    0 ≤ a ∧ ds ≠ [] ∧ pstrip ds = ds := by
  simp only [parseStripped] at h
  split at h
  · exact absurd h (by simp)
  · split at h
    · exact absurd h (by simp)
    · split at h
      · exact absurd h (by simp)
      · split at h
        · exact absurd h (by simp)
        · simp only [Option.some.injEq, Prod.mk.injEq] at h
          rcases h with ⟨ha, hds⟩
          rename_i hip hws hr3 hnl
          refine ⟨ha ▸ numVal_nonneg _ _, ?_, ?_⟩
          · exact hds ▸ pstrip_dropWhile_ne_nil hr3
          · rw [← hds, pstrip_idem]

theorem parse_some_facts {s : List Char} {a : ℚ} {ds : List Char}
    (h : parse_expense s = some (a, ds)) :
    0 ≤ a ∧ ds ≠ [] ∧ pstrip ds = ds :=
  parseStripped_some h

theorem pstrip_no_space {l : List Char} (h : ∀ c ∈ l, isSpaceChar c = false) :
    pstrip l = l := by
  have h1 : l.dropWhile isSpaceChar = l := by
    cases l with
    | nil => rfl
    | cons x xs => exact List.dropWhile_cons_of_neg (by simp [h x (by simp)])
  have h2 : l.reverse.dropWhile isSpaceChar = l.reverse := by
    cases hl : l.reverse with
    | nil => rfl
    | cons y ys =>
      have hy : y ∈ l := List.mem_reverse.1 (hl ▸ List.mem_cons_self y ys)
      exact List.dropWhile_cons_of_neg (by simp [h y hy])
  unfold pstrip rstrip
  rw [h1, h2, List.reverse_reverse]

theorem parse_expense_ws {w1 w2 s : List Char}
    (h1 : ∀ c ∈ w1, isSpaceChar c = true) (h2 : ∀ c ∈ w2, isSpaceChar c = true) :
    parse_expense (w1 ++ s ++ w2) = parse_expense s := by
  unfold parse_expense
  rw [pstrip_sandwich h1 h2]

theorem dictGet_mem {d : Ledger} {k : UserKey} {v : List ExpenseRecord}
    (h : dictGet d k = some v) : (k, v) ∈ d := by
  induction d with
  | nil => simp [dictGet] at h
  | cons p r ih =>
    rcases p with ⟨k', v'⟩
    by_cases hk : k' = k
    · subst hk
      have hg : dictGet ((k', v') :: r) k' = some v' := by simp [dictGet]
      rw [hg, Option.some.injEq] at h
      subst h
      simp
    · simp only [dictGet, if_neg hk] at h
      exact List.mem_cons_of_mem _ (ih h)

theorem mem_clear_user {q : UserKey × List ExpenseRecord} {d : Ledger} {u : UserKey}
    (h : q ∈ clear_user d u) : q ∈ d := by
  unfold clear_user at h
  by_cases hm : dictMem d u
  · rw [if_pos hm] at h
    exact mem_dictDel h
  · rwa [if_neg hm] at h

theorem mem_add_cases {q : UserKey × List ExpenseRecord} {d : Ledger} {u : UserKey}
    {a : ℚ} {ds : List Char} {n : Nat} (h : q ∈ (add_expense d u a ds n).2) :
    q = (u, readAll d u ++ [⟨a, ds, n⟩]) ∨ q ∈ d := by
  rw [add_expense_snd] at h
  exact mem_dictSet h

theorem pstrip_core {ip ds : List Char} (fo : Option (Char × List Char))
    (hip : ip ≠ []) (hipd : ∀ c ∈ ip, isDigitChar c = true)
    (hds : pstrip ds ≠ []) :
    pstrip ((ip ++ fracStr fo) ++ ' ' :: ds) = (ip ++ fracStr fo) ++ ' ' :: rstrip ds := by
  have hrds : rstrip ds ≠ [] := rstrip_ne_nil_of_pstrip hds
  have hcons : rstrip (' ' :: ds) = ' ' :: rstrip ds := rstrip_cons hrds
  have hBne : rstrip (' ' :: ds) ≠ [] := by
    rw [hcons]
    exact List.cons_ne_nil _ _
  rcases ip with _ | ⟨c0, ip0⟩
  · exact absurd rfl hip
  · have hc0 : isSpaceChar c0 = false := digit_not_space (hipd c0 (by simp))
    have hdw : (((c0 :: ip0) ++ fracStr fo) ++ ' ' :: ds).dropWhile isSpaceChar
        = ((c0 :: ip0) ++ fracStr fo) ++ ' ' :: ds := by
      simp only [List.cons_append]
      exact List.dropWhile_cons_of_neg (p := isSpaceChar) (by simp [hc0])
    unfold pstrip
    rw [hdw, rstrip_append hBne, hcons]

theorem parse_core_eval {ip ds : List Char} (fo : Option (Char × List Char))
    (hip : ip ≠ []) (hipd : ∀ c ∈ ip, isDigitChar c = true)
    (hfo : ∀ p, fo = some p → (p.1 = '.' ∨ p.1 = ',') ∧ p.2 ≠ [] ∧
      ∀ c ∈ p.2, isDigitChar c = true)
    (hds : pstrip ds ≠ []) (hnl : ∀ c ∈ ds, ¬ c = '\n') :
    parseStripped ((ip ++ fracStr fo) ++ ' ' :: rstrip ds) =
      some (numVal ip (fracDigits fo), pstrip ds) := by
  have hr3 : (rstrip ds).dropWhile isSpaceChar = pstrip ds := dropWhile_rstrip
  have hany : (pstrip ds).any (· = '\n') = false := by
    rw [List.any_eq_false]
    intro c hc
    simpa using hnl c (mem_pstrip hc)
  rcases fo with _ | ⟨sep, fp⟩
  · have hshape : (ip ++ fracStr none) ++ ' ' :: rstrip ds = ip ++ ' ' :: rstrip ds := by
      simp [fracStr]
    rw [hshape, parseStripped_nofrac hip hipd, hr3, if_neg hds, hany]
    simp [fracDigits, pstrip_idem]
  · rcases hfo (sep, fp) rfl with ⟨hsep, hfp, hfpd⟩
    dsimp only at hsep hfp hfpd
    have hshape : (ip ++ fracStr (some (sep, fp))) ++ ' ' :: rstrip ds
        = ip ++ sep :: (fp ++ ' ' :: rstrip ds) := by
      simp [fracStr]
    rw [hshape, parseStripped_frac hip hipd hsep hfp hfpd, hr3, if_neg hds, hany]
    simp [fracDigits, pstrip_idem]

/-! ### The claims -/

/-- C1, counterexample: the claim promises success for every input of the
form numeral-space-description with a non-empty description, but the regex
dot does not match a newline, so the input built from the numeral 12 and
the non-empty (even after trimming) description a-newline-b is rejected by
`parse_expense` instead of being accepted. -/
theorem claim_C1_counterexample :
    "12 a\nb".toList = "12".toList ++ ' ' :: "a\nb".toList ∧
    "a\nb".toList ≠ [] ∧ pstrip "a\nb".toList ≠ [] ∧
    (∀ c ∈ "12".toList, isDigitChar c = true) ∧
    parse_expense "12 a\nb".toList = none := by
  exact ⟨by decide, by decide, by decide, by decide, by decide⟩

/-- C1 (amended): for every input of the form numeral, whitespace,
description — where the numeral is one or more digits optionally followed
by a dot or comma separator and one or more further digits, and the
description is non-empty after trimming and contains no newline — the
parser succeeds and returns the numeric value of the numeral (comma read
as dot) together with the trimmed description; leading and trailing
whitespace of the whole input is ignored and interior spaces of the
description are preserved (the description is returned verbatim up to
end trimming). -/
theorem claim_C1_amended (w1 w2 ip ds : List Char) (fo : Option (Char × List Char))
    (hw1 : ∀ c ∈ w1, isSpaceChar c = true) (hw2 : ∀ c ∈ w2, isSpaceChar c = true)
    (hip : ip ≠ []) (hipd : ∀ c ∈ ip, isDigitChar c = true)
    (hfo : ∀ p, fo = some p → (p.1 = '.' ∨ p.1 = ',') ∧ p.2 ≠ [] ∧
      ∀ c ∈ p.2, isDigitChar c = true)
    (hds : pstrip ds ≠ []) (hnl : ∀ c ∈ ds, ¬ c = '\n') :
    parse_expense (w1 ++ ((ip ++ fracStr fo) ++ ' ' :: ds) ++ w2) =
      some (numVal ip (fracDigits fo), pstrip ds) := by
  rw [parse_expense_ws hw1 hw2]
  unfold parse_expense
  rw [pstrip_core fo hip hipd hds]
  exact parse_core_eval fo hip hipd hfo hds hnl

theorem claim_C1_amended_witness :
    parse_expense ([] ++ (("15".toList ++ fracStr none) ++ ' ' :: "alepa".toList) ++ []) =
      some (numVal "15".toList (fracDigits none), pstrip "alepa".toList) :=
  claim_C1_amended [] [] "15".toList "alepa".toList none (by decide) (by decide)
    (by decide) (by decide) (fun p hp => by cases hp) (by decide) (by decide)

/-- C3: inputs without a description (a bare numeral, possibly surrounded
by whitespace) and inputs without a leading digit are rejected: the parser
returns none.  The embedding is a total function, so no exception and no
partial parse is possible. -/
theorem claim_C3 :
    (∀ w1 w2 ip : List Char, ∀ fo : Option (Char × List Char),
      (∀ c ∈ w1, isSpaceChar c = true) → (∀ c ∈ w2, isSpaceChar c = true) →
      (∀ c ∈ ip, isDigitChar c = true) →
      (∀ p, fo = some p → (p.1 = '.' ∨ p.1 = ',') ∧ p.2 ≠ [] ∧
        ∀ c ∈ p.2, isDigitChar c = true) →
      parse_expense (w1 ++ (ip ++ fracStr fo) ++ w2) = none) ∧
    (∀ s : List Char, (pstrip s).takeWhile isDigitChar = [] →
      parse_expense s = none) := by
  constructor
  · intro w1 w2 ip fo hw1 hw2 hipd hfo
    have hnospace : ∀ c ∈ ip ++ fracStr fo, isSpaceChar c = false := by
      intro c hc
      rcases List.mem_append.1 hc with hc | hc
      · exact digit_not_space (hipd c hc)
      · rcases fo with _ | ⟨sep, fp⟩
        · simp [fracStr] at hc
        · rcases hfo (sep, fp) rfl with ⟨hsep, hfp, hfpd⟩
          dsimp only at hsep hfpd
          simp only [fracStr, List.mem_cons] at hc
          rcases hc with rfl | hc
          · rcases hsep with h | h <;> rw [h] <;> decide
          · exact digit_not_space (hfpd c hc)
    rw [parse_expense_ws hw1 hw2]
    unfold parse_expense
    rw [pstrip_no_space hnospace]
    exact parseStripped_numeral_only ip fo hipd hfo
  · intro s h
    unfold parse_expense
    exact parseStripped_no_digit h

theorem claim_C3_witness :
    parse_expense (" ".toList ++ ("15".toList ++ fracStr none) ++ " ".toList) = none ∧
    parse_expense "alepa 15".toList = none :=
  ⟨claim_C3.1 " ".toList " ".toList "15".toList none (by decide) (by decide) (by decide)
      (fun p hp => by cases hp),
    claim_C3.2 "alepa 15".toList (by decide)⟩

/-- C4: the round trip.  Appending a record for user u and then reading
all of u's records yields the old sequence extended at the end with
exactly the created record, whose amount, description and timestamp are
the arguments; the created record is what `add_expense` returns. -/
theorem claim_C4 (d : Ledger) (u : UserKey) (a : ℚ) (ds : List Char) (n : Nat) :
    (add_expense d u a ds n).1 = ⟨a, ds, n⟩ ∧
    readAll (add_expense d u a ds n).2 u = readAll d u ++ [(add_expense d u a ds n).1] ∧
    (readAll (add_expense d u a ds n).2 u).getLast? = some ⟨a, ds, n⟩ := by
  refine ⟨rfl, ?_, ?_⟩
  · rw [readAll_add_self]
    rfl
  · rw [readAll_add_self]
    exact List.getLast?_concat _

/-- C5: a message the parser rejects leaves the ledger untouched and is
answered with the did-not-understand reply; a message the parser accepts
is stored by `add_expense` and confirmed.  Every mutation is thus all or
nothing. -/
theorem claim_C5 (d : Ledger) (u : UserKey) (text : List Char) (now : Nat) :
    (parse_expense text = none →
      handle_message d u text now = (d, Reply.notUnderstood)) ∧
    (∀ a ds, parse_expense text = some (a, ds) →
      handle_message d u text now =
        ((add_expense d u a ds now).2, Reply.saved a ds)) := by
  constructor
  · intro h
    unfold handle_message
    rw [h]
  · intro a ds h
    unfold handle_message
    rw [h]

theorem claim_C5_witness :
    handle_message [] "7".toList "not a number".toList 0 = ([], Reply.notUnderstood) :=
  (claim_C5 [] "7".toList "not a number".toList 0).1 (by decide)

/-- C8: clear is idempotent and total.  Clearing removes the user's whole
sequence, clearing an absent user is a no-op without error, clearing
twice equals clearing once, and a read after a clear returns the empty
sequence. -/
theorem claim_C8 (d : Ledger) (u : UserKey) :
    clear_user (clear_user d u) u = clear_user d u ∧
    (dictMem d u = false → clear_user d u = d) ∧
    readAll (clear_user d u) u = [] ∧
    readAll (clear_user (clear_user d u) u) u = [] := by
  refine ⟨clear_user_idem d u, fun h => clear_user_not_mem h, readAll_clear_self d u, ?_⟩
  rw [clear_user_idem]
  exact readAll_clear_self d u

theorem claim_C8_witness :
    clear_user (clear_user [] "7".toList) "7".toList = clear_user [] "7".toList ∧
    clear_user [] "7".toList = ([] : Ledger) ∧
    readAll (clear_user [] "7".toList) "7".toList = [] :=
  ⟨(claim_C8 [] "7".toList).1, (claim_C8 [] "7".toList).2.1 rfl,
    (claim_C8 [] "7".toList).2.2.1⟩

/-- C9, the frame property: appending for user u or clearing user u leaves
the stored sequence of every other user v unchanged. -/
theorem claim_C9 (d : Ledger) (u v : UserKey) (a : ℚ) (ds : List Char) (n : Nat)
    (h : v ≠ u) :
    readAll (add_expense d u a ds n).2 v = readAll d v ∧
    readAll (clear_user d u) v = readAll d v :=
  ⟨readAll_add_other a ds n h, readAll_clear_other h⟩

theorem claim_C9_witness :
    readAll (add_expense [("9".toList, [⟨3, ['x'], 0⟩])] "7".toList 3 ['y'] 0).2
        "9".toList
      = readAll [("9".toList, [⟨3, ['x'], 0⟩])] "9".toList ∧
    readAll (clear_user [("9".toList, [⟨3, ['x'], 0⟩])] "7".toList) "9".toList
      = readAll [("9".toList, [⟨3, ['x'], 0⟩])] "9".toList :=
  claim_C9 [("9".toList, [⟨3, ['x'], 0⟩])] "7".toList "9".toList 3 ['y'] 0 (by decide)

/-- C2, counterexample: the claimed invariant says every stored record has
amount strictly greater than zero, but the parser accepts the input 0 x
(the regex digit run may be the single digit zero), so a reachable ledger
state stores a record whose amount is zero, not positive. -/
theorem claim_C2_counterexample :
    parse_expense "0 x".toList = some (numVal ['0'] [], ['x']) ∧
    Reach (add_expense [] "7".toList (numVal ['0'] []) ['x'] 0).2 ∧
    (⟨numVal ['0'] [], ['x'], 0⟩ : ExpenseRecord) ∈
      readAll (add_expense [] "7".toList (numVal ['0'] []) ['x'] 0).2 "7".toList ∧
    ¬ (0 < (⟨numVal ['0'] [], ['x'], 0⟩ : ExpenseRecord).amount) := by
  refine ⟨rfl, Reach.add [] "7".toList "0 x".toList _ _ 0 Reach.empty rfl, ?_, ?_⟩
  · rw [readAll_add_self]
    simp
  · have h0 : numVal ['0'] [] = 0 := by
      have h1 : digitsToNat ['0'] = 0 := rfl
      have h2 : digitsToNat ([] : List Char) = 0 := rfl
      unfold numVal
      rw [h1, h2]
      norm_num
    simp [h0]

/-- C2 (amended): in every ledger state reachable by parser-accepted
appends and by clears, every stored record has a non-negative amount (not
necessarily positive: zero amounts are accepted) and a description that is
non-empty after trimming; and an append either leaves a user's sequence
unchanged or extends it at the end with the created record, so the
existing prefix is never reordered or edited. -/
theorem claim_C2_amended :
    (∀ d, Reach d → ∀ p ∈ d, ∀ r ∈ p.2,
      0 ≤ r.amount ∧ pstrip r.description ≠ []) ∧
    (∀ d u a ds n v,
      readAll (add_expense d u a ds n).2 v = readAll d v ∨
      readAll (add_expense d u a ds n).2 v
        = readAll d v ++ [(add_expense d u a ds n).1]) := by
  constructor
  · intro d hd
    induction hd with
    | empty =>
      intro p hp
      exact absurd hp (List.not_mem_nil p)
    | add d u text a desc now hrch hparse ih =>
      intro p hp r hr
      rcases mem_add_cases hp with rfl | hp'
      · dsimp only at hr
        rcases List.mem_append.1 hr with hr' | hr'
        · rcases hget : dictGet d u with _ | v
          · unfold readAll at hr'
            rw [hget] at hr'
            exact absurd hr' (by simp)
          · unfold readAll at hr'
            rw [hget] at hr'
            exact ih (u, v) (dictGet_mem hget) r (by simpa using hr')
        · have hrec : r = ⟨a, desc, now⟩ := by simpa using hr'
          subst hrec
          obtain ⟨ha, hne, hstrip⟩ := parse_some_facts hparse
          refine ⟨ha, ?_⟩
          show pstrip desc ≠ []
          rw [hstrip]
          exact hne
      · exact ih p hp' r hr
    | clear d u hrch ih =>
      intro p hp r hr
      exact ih p (mem_clear_user hp) r hr
  · intro d u a ds n v
    by_cases hv : v = u
    · subst hv
      right
      rw [readAll_add_self]
      rfl
    · left
      exact readAll_add_other a ds n hv

theorem claim_C2_amended_witness :
    0 ≤ (⟨numVal ['5'] [], ['x'], 0⟩ : ExpenseRecord).amount ∧
    pstrip (⟨numVal ['5'] [], ['x'], 0⟩ : ExpenseRecord).description ≠ [] := by
  have hmem : (("7".toList : UserKey), [(⟨numVal ['5'] [], ['x'], 0⟩ : ExpenseRecord)]) ∈
      (add_expense [] "7".toList (numVal ['5'] []) ['x'] 0).2 := by
    simp [add_expense, dictMem, dictSet, readAll, dictGet]
  exact claim_C2_amended.1 _
    (Reach.add [] "7".toList "5 x".toList _ _ 0 Reach.empty rfl) _ hmem _ (by simp)

/-- C6: the recent view returns the last min(n, length) records of the
user's stored sequence, i.e. the drop of all but the last n, presented in
reversed (most-recent-first) order — equivalently the first n records of
the reversed sequence; and after fifteen appends of amounts one to
fifteen, recent with n ten is exactly the last ten appended records,
most recent first. -/
theorem claim_C6 :
    (∀ d u n, recent d u n =
        ((readAll d u).drop ((readAll d u).length - n)).reverse ∧
      recent d u n = ((readAll d u).reverse).take n ∧
      (recent d u n).length = min n (readAll d u).length) ∧
    recent (addAll [] "7".toList demoAmounts) "7".toList 10 =
      [⟨15, ['e'], 0⟩, ⟨14, ['e'], 0⟩, ⟨13, ['e'], 0⟩, ⟨12, ['e'], 0⟩, ⟨11, ['e'], 0⟩,
       ⟨10, ['e'], 0⟩, ⟨9, ['e'], 0⟩, ⟨8, ['e'], 0⟩, ⟨7, ['e'], 0⟩, ⟨6, ['e'], 0⟩] := by
  constructor
  · intro d u n
    refine ⟨rfl, ?_, ?_⟩
    · simp only [recent]
      have h := List.reverse_take (l := (readAll d u).reverse) (n := n)
      rw [List.reverse_reverse, List.length_reverse] at h
      rw [← h, List.reverse_reverse]
    · simp only [recent]
      rw [List.length_reverse, List.length_drop]
      omega
  · decide

/-- C7: totals is the pair of the sum of the user's amounts and the count
of the user's records; it is zero-zero for a user absent from the store;
and after appending twelve-and-a-half for coffee and thirty for lunch to
an empty ledger it is forty-two-and-a-half with count two. -/
theorem claim_C7 :
    (∀ d u, totals d u =
      (((readAll d u).map ExpenseRecord.amount).sum, (readAll d u).length)) ∧
    (∀ d u, dictMem d u = false → totals d u = (0, 0)) ∧
    totals (add_expense (add_expense [] "7".toList (25/2) "coffee".toList 0).2
        "7".toList 30 "lunch".toList 1).2 "7".toList = (85/2, 2) := by
  refine ⟨fun d u => rfl, ?_, ?_⟩
  · intro d u h
    unfold totals readAll
    rw [dictGet_of_not_mem h]
    rfl
  · have h1 : readAll (add_expense (add_expense [] "7".toList (25/2) "coffee".toList 0).2
        "7".toList 30 "lunch".toList 1).2 "7".toList
        = [⟨25/2, "coffee".toList, 0⟩, ⟨30, "lunch".toList, 1⟩] := by
      rw [readAll_add_self, readAll_add_self]
      rfl
    unfold totals
    rw [h1]
    simp only [List.map_cons, List.map_nil, List.sum_cons, List.sum_nil,
      List.length_cons, List.length_nil, Prod.mk.injEq]
    norm_num

theorem claim_C7_witness : totals [] "7".toList = (0, 0) :=
  claim_C7.2.1 [] "7".toList rfl

/-- C10, implicit invariant: in every ledger state reachable from the
empty store, every key present maps to a non-empty record list — an append
creates a key only together with its first record, and a clear removes
the key outright instead of leaving an empty list behind. -/
theorem claim_C10 (d : Ledger) (h : Reach d) : ∀ p ∈ d, p.2 ≠ [] := by
  induction h with
  | empty =>
    intro p hp
    exact absurd hp (List.not_mem_nil p)
  | add d u text a desc now hrch hparse ih =>
    intro p hp
    rcases mem_add_cases hp with rfl | hp'
    · simp
    · exact ih p hp'
  | clear d u hrch ih =>
    intro p hp
    exact ih p (mem_clear_user hp)

theorem claim_C10_witness :
    [(⟨numVal ['5'] [], ['x'], 0⟩ : ExpenseRecord)] ≠ ([] : List ExpenseRecord) := by
  have hmem : (("7".toList : UserKey), [(⟨numVal ['5'] [], ['x'], 0⟩ : ExpenseRecord)]) ∈
      (add_expense [] "7".toList (numVal ['5'] []) ['x'] 0).2 := by
    simp [add_expense, dictMem, dictSet, readAll, dictGet]
  exact claim_C10 _ (Reach.add [] "7".toList "5 x".toList _ _ 0 Reach.empty rfl) _ hmem

end SpendingBot
